import Mathlib

/-!
Verification of the `MIDITokenizer` base class of the miditok package
(`src/miditok/midi_tokenizer_base.py`), as a shallow embedding.

Times (ticks) are natural numbers, pitches / velocities / tempos are
integers (numpy `intc` values in the source).  Python code that can raise
an exception is embedded as an `Option`-returning function (`none` models
the exception).  In-place list mutation with manual index bookkeeping
(`del` inside a `while` loop) is embedded as a recursive traversal
producing a new list, preserving order.
-/

namespace Miditok

/-- A miditoolkit note: pitch, velocity and the start / end times in ticks. -/
structure MtNote where
  pitch : ℤ
  velocity : ℤ
  start : ℕ
  «end» : ℕ
deriving DecidableEq

/-- A miditoolkit tempo change: tempo value and its time in ticks. -/
structure MtTempoChange where
  tempo : ℤ
  time : ℕ
deriving DecidableEq

/-- Left fold keeping the element minimizing `d`, earlier elements winning
ties: the behaviour of `np.argmin`, which returns the first index of the
minimum.  Shared by the velocity, tempo and duration nearest-value lookups. -/
def foldNearest (d : α → ℕ) (x : α) (l : List α) : α :=
  l.foldl (fun best y => if d y < d best then y else best) x

theorem foldNearest_cons (d : α → ℕ) (x y : α) (ys : List α) :
    foldNearest d x (y :: ys) = foldNearest d (if d y < d x then y else x) ys := rfl

theorem foldNearest_mem (d : α → ℕ) (x : α) (l : List α) :
    foldNearest d x l = x ∨ foldNearest d x l ∈ l := by
  induction l generalizing x with
  | nil => exact Or.inl rfl
  | cons y ys ih =>
    rw [foldNearest_cons]
    by_cases hc : d y < d x
    · rw [if_pos hc]
      rcases ih y with h | h
      · right; rw [h]; exact List.mem_cons_self y ys
      · right; exact List.mem_cons_of_mem y h
    · rw [if_neg hc]
      rcases ih x with h | h
      · exact Or.inl h
      · right; exact List.mem_cons_of_mem y h

theorem foldNearest_zero (d : α → ℕ) (x : α) (l : List α)
    (h : d x = 0 ∨ ∃ y ∈ l, d y = 0) : d (foldNearest d x l) = 0 := by
  induction l generalizing x with
  | nil =>
    rcases h with h | ⟨y, hy, _⟩
    · exact h
    · simp at hy
  | cons y ys ih =>
    rw [foldNearest_cons]
    apply ih
    rcases h with h | ⟨z, hz, hz0⟩
    · left
      rw [if_neg (by omega)]
      exact h
    · rcases List.mem_cons.mp hz with rfl | hzys
      · by_cases hc : d z < d x
        · left; rw [if_pos hc]; exact hz0
        · left; rw [if_neg hc]; omega
      · right; exact ⟨z, hzys, hz0⟩

/-- Distance between two naturals, `np.abs(a - b)` on nonnegative values. -/
def natDist (a b : ℕ) : ℕ := max a b - min a b

theorem natDist_self (a : ℕ) : natDist a a = 0 := by simp [natDist]

theorem natDist_eq_zero {a b : ℕ} (h : natDist a b = 0) : a = b := by
  simp only [natDist] at h; omega

/-- Nearest value of `l` to `v` (first minimum wins), the embedding of
`arr[np.argmin(np.abs(arr - v))]` used for velocity and tempo snapping.
The empty-array case (where numpy raises) is irrelevant under the
nonemptiness hypotheses of the theorems below. -/
def nearestInt (l : List ℤ) (v : ℤ) : ℤ :=
  match l with
  | [] => v
  | x :: rest => foldNearest (fun y => (y - v).natAbs) x rest

theorem nearestInt_mem {l : List ℤ} (h : l ≠ []) (v : ℤ) : nearestInt l v ∈ l := by
  match l with
  | x :: rest =>
    rcases foldNearest_mem (fun y => (y - v).natAbs) x rest with h1 | h1
    · rw [nearestInt, h1]; exact List.mem_cons_self x rest
    · rw [nearestInt]; exact List.mem_cons_of_mem x h1

theorem nearestInt_self {l : List ℤ} {v : ℤ} (h : v ∈ l) : nearestInt l v = v := by
  match l, h with
  | x :: rest, h =>
    have harg : (fun y => (y - v).natAbs) x = 0 ∨ ∃ y ∈ rest, (fun y => (y - v).natAbs) y = 0 := by
      rcases List.mem_cons.mp h with rfl | hmem
      · left; simp
      · right; exact ⟨v, hmem, by simp⟩
    have hz : ((foldNearest (fun y => (y - v).natAbs) x rest) - v).natAbs = 0 :=
      foldNearest_zero (fun y => (y - v).natAbs) x rest harg
    have := Int.natAbs_eq_zero.mp hz
    rw [nearestInt]
    omega

/-- Snapping of a time to the quantization grid, the embedding of
`t += -offs if offs <= ticks_per_sample / 2 else ticks_per_sample - offs`
(lines 269-272 and 296-297 of the source): an offset of at most half a
grid step rounds down, a larger offset rounds up. -/
def snapTime (ticksPerSample t : ℕ) : ℕ :=
  if 2 * (t % ticksPerSample) ≤ ticksPerSample then t - t % ticksPerSample
  else t + (ticksPerSample - t % ticksPerSample)

theorem snapTime_cases {tps : ℕ} (htps : 0 < tps) (t : ℕ) :
    (2 * (t % tps) ≤ tps ∧ snapTime tps t = tps * (t / tps)) ∨
    (tps < 2 * (t % tps) ∧ snapTime tps t = tps * (t / tps) + tps) := by
  have hd := Nat.div_add_mod t tps
  have hm : t % tps < tps := Nat.mod_lt t htps
  by_cases h : 2 * (t % tps) ≤ tps
  · left
    refine ⟨h, ?_⟩
    rw [snapTime, if_pos h]
    generalize tps * (t / tps) = P at hd ⊢
    omega
  · right
    refine ⟨by omega, ?_⟩
    rw [snapTime, if_neg h]
    generalize tps * (t / tps) = P at hd ⊢
    omega

theorem snapTime_mod {tps : ℕ} (htps : 0 < tps) (t : ℕ) : snapTime tps t % tps = 0 := by
  rcases snapTime_cases htps t with ⟨_, h⟩ | ⟨_, h⟩
  · rw [h]; exact Nat.mul_mod_right tps _
  · rw [h, Nat.add_mod, Nat.mul_mod_right, Nat.mod_self]; simp

theorem snapTime_of_mod_eq_zero {tps t : ℕ} (h : t % tps = 0) : snapTime tps t = t := by
  rw [snapTime, h]
  simp

theorem snapTime_mono {tps s t : ℕ} (hst : s ≤ t) :
    snapTime tps s ≤ snapTime tps t := by
  rcases Nat.eq_zero_or_pos tps with rfl | htps
  · have h0 : ∀ u, snapTime 0 u = u := by
      intro u
      rw [snapTime]
      split <;> omega
    rw [h0, h0]
    exact hst
  have hds := Nat.div_add_mod s tps
  have hdt := Nat.div_add_mod t tps
  have hq : s / tps ≤ t / tps := Nat.div_le_div_right hst
  rcases Nat.lt_or_ge (s / tps) (t / tps) with hlt | hge
  · have hstep : tps * (s / tps) + tps ≤ tps * (t / tps) := by
      calc tps * (s / tps) + tps = tps * (s / tps + 1) := by ring
        _ ≤ tps * (t / tps) := Nat.mul_le_mul_left tps hlt
    rcases snapTime_cases htps s with ⟨_, hs⟩ | ⟨_, hs⟩ <;>
      rcases snapTime_cases htps t with ⟨_, ht⟩ | ⟨_, ht⟩ <;>
      rw [hs, ht] <;> linarith
  · have heq : s / tps = t / tps := Nat.le_antisymm hq hge
    have hmul : tps * (s / tps) = tps * (t / tps) := by rw [heq]
    rcases snapTime_cases htps s with ⟨hcs, hs⟩ | ⟨hcs, hs⟩ <;>
      rcases snapTime_cases htps t with ⟨hct, ht⟩ | ⟨hct, ht⟩ <;>
      rw [hs, ht] <;> linarith

/-- Per-note body of `MIDITokenizer.quantize_notes` (source lines 265-278):
a note whose pitch falls outside `range(prStart, prStop)` is deleted
(`none`); otherwise its start and end are snapped to the grid, a collapsed
note (`start == end`) has its end pushed one grid step forward, and its
velocity is replaced by the nearest velocity bin. -/
def quantizeNote (velocities : List ℤ) (prStart prStop : ℤ) (ticksPerSample : ℕ)
    (n : MtNote) : Option MtNote :=
  if prStart ≤ n.pitch ∧ n.pitch < prStop then
    some { pitch := n.pitch, velocity := nearestInt velocities n.velocity,
           start := snapTime ticksPerSample n.start,
           «end» :=
             if snapTime ticksPerSample n.start = snapTime ticksPerSample n.«end» then
               snapTime ticksPerSample n.«end» + ticksPerSample
             else snapTime ticksPerSample n.«end» }
  else none

/-- Embedding of `MIDITokenizer.quantize_notes` (source lines 252-278).  The grid step is
`int(time_division / max(self.beat_res.values()))`; the in-place `while`
loop with `del` is embedded as an order-preserving `filterMap`. -/
def quantize_notes (velocities : List ℤ) (prStart prStop : ℤ)
    (timeDivision maxBeatRes : ℕ) (notes : List MtNote) : List MtNote :=
  notes.filterMap (quantizeNote velocities prStart prStop (timeDivision / maxBeatRes))

theorem quantizeNote_some {vel : List ℤ} {prS prE : ℤ} {tps : ℕ} {n n' : MtNote}
    (h : quantizeNote vel prS prE tps n = some n') :
    (prS ≤ n.pitch ∧ n.pitch < prE) ∧
    n'.pitch = n.pitch ∧
    n'.velocity = nearestInt vel n.velocity ∧
    n'.start = snapTime tps n.start ∧
    ((snapTime tps n.start = snapTime tps n.«end» ∧
        n'.«end» = snapTime tps n.start + tps) ∨
      (snapTime tps n.start ≠ snapTime tps n.«end» ∧
        n'.«end» = snapTime tps n.«end»)) := by
  rw [quantizeNote] at h
  split at h
  · rename_i hpr
    injection h with h
    subst h
    refine ⟨hpr, rfl, rfl, rfl, ?_⟩
    by_cases he : snapTime tps n.start = snapTime tps n.«end»
    · left
      refine ⟨he, ?_⟩
      show (if snapTime tps n.start = snapTime tps n.«end» then
              snapTime tps n.«end» + tps else snapTime tps n.«end») = snapTime tps n.start + tps
      rw [if_pos he, he]
    · right
      refine ⟨he, ?_⟩
      show (if snapTime tps n.start = snapTime tps n.«end» then
              snapTime tps n.«end» + tps else snapTime tps n.«end») = snapTime tps n.«end»
      rw [if_neg he]
  · exact Option.noConfusion h

theorem quantizeNote_idem {vel : List ℤ} {prS prE : ℤ} {tps : ℕ} {n n' : MtNote}
    (hvel : vel ≠ []) (htps : 0 < tps)
    (h : quantizeNote vel prS prE tps n = some n') :
    quantizeNote vel prS prE tps n' = some n' := by
  obtain ⟨hpr, hpitch, hvelq, hstart, hend⟩ := quantizeNote_some h
  have hsmod : n'.start % tps = 0 := by rw [hstart]; exact snapTime_mod htps _
  have hemod : n'.«end» % tps = 0 := by
    rcases hend with ⟨_, he⟩ | ⟨_, he⟩
    · rw [he, Nat.add_mod, snapTime_mod htps, Nat.mod_self]; simp
    · rw [he]; exact snapTime_mod htps _
  have hsnaps : snapTime tps n'.start = n'.start := snapTime_of_mod_eq_zero hsmod
  have hsnape : snapTime tps n'.«end» = n'.«end» := snapTime_of_mod_eq_zero hemod
  have hne : n'.start ≠ n'.«end» := by
    rcases hend with ⟨he, heq⟩ | ⟨hne2, heq⟩
    · rw [hstart, heq]; omega
    · rw [hstart, heq]; exact hne2
  have hvfix : nearestInt vel n'.velocity = n'.velocity := by
    rw [hvelq]; exact nearestInt_self (nearestInt_mem hvel _)
  rw [quantizeNote, if_pos (by rw [hpitch]; exact hpr), hsnaps, hsnape, if_neg hne, hvfix]

theorem filterMap_fix_idem {g : α → Option α}
    (hg : ∀ a b, g a = some b → g b = some b) :
    ∀ l : List α, (l.filterMap g).filterMap g = l.filterMap g := by
  intro l
  induction l with
  | nil => rfl
  | cons a l ih =>
    cases hga : g a with
    | none => simp only [List.filterMap_cons, hga]; exact ih
    | some b =>
      simp only [List.filterMap_cons, hga, hg a b hga]
      rw [ih]

/-- C3: for every note list whose notes satisfy start ≤ end and every
time division at least the maximum configured beat resolution, every note
surviving `quantize_notes` has its pitch inside the pitch range, a strictly
positive length (a note whose snapped start equals its snapped end gets its
end extended by exactly one grid step), and a velocity from the velocity
bucket set; a note whose pitch lies outside the pitch range is absent from
the output. -/
theorem quantize_notes_invariants
    (vel : List ℤ) (prS prE : ℤ) (td mbr : ℕ) (notes : List MtNote)
    (hvel : vel ≠ []) (hmbr : 0 < mbr) (hdiv : mbr ≤ td)
    (hse : ∀ n ∈ notes, n.start ≤ n.«end») :
    (∀ n' ∈ quantize_notes vel prS prE td mbr notes,
        (prS ≤ n'.pitch ∧ n'.pitch < prE) ∧ n'.start < n'.«end» ∧ n'.velocity ∈ vel) ∧
    (∀ n ∈ notes, ¬(prS ≤ n.pitch ∧ n.pitch < prE) →
        n ∉ quantize_notes vel prS prE td mbr notes) ∧
    (∀ n n', quantizeNote vel prS prE (td / mbr) n = some n' →
        snapTime (td / mbr) n.start = snapTime (td / mbr) n.«end» →
        n'.«end» = n'.start + td / mbr) := by
  have htps : 0 < td / mbr := Nat.div_pos hdiv hmbr
  refine ⟨?_, ?_, ?_⟩
  · intro n' hn'
    obtain ⟨n, hn, hq⟩ := List.mem_filterMap.mp hn'
    obtain ⟨hpr, hpitch, hvelq, hstart, hend⟩ := quantizeNote_some hq
    refine ⟨by rw [hpitch]; exact hpr, ?_, by rw [hvelq]; exact nearestInt_mem hvel _⟩
    have hmono : snapTime (td / mbr) n.start ≤ snapTime (td / mbr) n.«end» :=
      snapTime_mono (hse n hn)
    rcases hend with ⟨he, heq⟩ | ⟨hne, heq⟩
    · rw [hstart, heq]; omega
    · rw [hstart, heq]; omega
  · intro n hn hout hmem
    obtain ⟨m, _, hqm⟩ := List.mem_filterMap.mp hmem
    obtain ⟨hpr, hpitch, _, _, _⟩ := quantizeNote_some hqm
    exact hout (by rw [hpitch]; exact hpr)
  · intro n n' hq he
    obtain ⟨_, _, _, hstart, hend⟩ := quantizeNote_some hq
    rcases hend with ⟨_, heq⟩ | ⟨hne, _⟩
    · rw [heq, hstart]
    · exact absurd he hne

theorem quantize_notes_invariants_witness :
    (0 ≤ (60 : ℤ) ∧ (60 : ℤ) < 128) ∧ (0 : ℕ) < 4 ∧ (64 : ℤ) ∈ [(64 : ℤ)] :=
  (quantize_notes_invariants [64] 0 128 8 4 [⟨60, 100, 1, 5⟩] (by decide) (by decide)
      (by decide) (by decide)).1 ⟨60, 64, 0, 4⟩ (by decide)

/-- C4: `quantize_notes` snaps each time independently to the quantization
grid (step `time_division / max_beat_res`) with round-half-down
tie-breaking: an offset of at most half the step (in particular exactly
half) rounds down to the previous grid line `tps * (t / tps)`, a larger
offset rounds up to the next line; the last two conjuncts verify these are
the enclosing grid lines. -/
theorem snapTime_round_half_down (tps t : ℕ) (htps : 0 < tps) :
    (2 * (t % tps) ≤ tps → snapTime tps t = tps * (t / tps)) ∧
    (tps < 2 * (t % tps) → snapTime tps t = tps * (t / tps) + tps) ∧
    (2 * (t % tps) = tps → snapTime tps t = tps * (t / tps)) ∧
    tps * (t / tps) ≤ t ∧ t < tps * (t / tps) + tps := by
  have hd := Nat.div_add_mod t tps
  have hm : t % tps < tps := Nat.mod_lt t htps
  have hcases := snapTime_cases htps t
  generalize tps * (t / tps) = P at hd hcases ⊢
  rcases hcases with ⟨hc, hs⟩ | ⟨hc, hs⟩ <;>
    exact ⟨fun h2 => by omega, fun h2 => by omega, fun h2 => by omega, by omega, by omega⟩

theorem snapTime_round_half_down_witness :
    snapTime 4 5 = 4 * (5 / 4) ∧ snapTime 4 7 = 4 * (7 / 4) + 4 ∧
    snapTime 4 6 = 4 * (6 / 4) :=
  ⟨(snapTime_round_half_down 4 5 (by decide)).1 (by decide),
   (snapTime_round_half_down 4 7 (by decide)).2.1 (by decide),
   (snapTime_round_half_down 4 6 (by decide)).2.2.1 (by decide)⟩

/-- C5: `quantize_notes` is idempotent: re-quantizing an already-quantized
note list with the same grid yields the identical note list. -/
theorem quantize_notes_idem (vel : List ℤ) (prS prE : ℤ) (td mbr : ℕ)
    (notes : List MtNote) (hvel : vel ≠ []) (hmbr : 0 < mbr) (hdiv : mbr ≤ td) :
    quantize_notes vel prS prE td mbr (quantize_notes vel prS prE td mbr notes) =
      quantize_notes vel prS prE td mbr notes := by
  have htps : 0 < td / mbr := Nat.div_pos hdiv hmbr
  exact filterMap_fix_idem (fun a b h => quantizeNote_idem hvel htps h) notes

theorem quantize_notes_idem_witness :
    quantize_notes [64] 0 128 8 4 (quantize_notes [64] 0 128 8 4 [⟨60, 100, 1, 5⟩]) =
      quantize_notes [64] 0 128 8 4 [⟨60, 100, 1, 5⟩] :=
  quantize_notes_idem [64] 0 128 8 4 [⟨60, 100, 1, 5⟩] (by decide) (by decide) (by decide)

/-- Loop body of `MIDITokenizer.quantize_tempos` (source lines 288-299):
each change's tempo is snapped to the nearest tempo bin; a change whose
snapped tempo equals the previous surviving change's tempo is deleted,
otherwise its time is snapped to the grid and it becomes the new
`prev_tempo`. -/
def quantizeTemposLoop (buckets : List ℤ) (ticksPerSample : ℕ) :
    ℤ → List MtTempoChange → List MtTempoChange
  | _, [] => []
  | prevTempo, c :: rest =>
    if nearestInt buckets c.tempo = prevTempo then
      quantizeTemposLoop buckets ticksPerSample prevTempo rest
    else
      { tempo := nearestInt buckets c.tempo, time := snapTime ticksPerSample c.time } ::
        quantizeTemposLoop buckets ticksPerSample (nearestInt buckets c.tempo) rest

/-- Embedding of `MIDITokenizer.quantize_tempos` (source lines 280-299); `prev_tempo`
starts at `-1`. -/
def quantize_tempos (buckets : List ℤ) (timeDivision maxBeatRes : ℕ)
    (tempos : List MtTempoChange) : List MtTempoChange :=
  quantizeTemposLoop buckets (timeDivision / maxBeatRes) (-1) tempos

theorem quantizeTemposLoop_spec (buckets : List ℤ) (tps : ℕ) (hb : buckets ≠ []) :
    ∀ (l : List MtTempoChange) (prev : ℤ),
      (∀ c ∈ quantizeTemposLoop buckets tps prev l, c.tempo ∈ buckets) ∧
      (quantizeTemposLoop buckets tps prev l).Chain' (fun a b => a.tempo ≠ b.tempo) ∧
      (∀ c, (quantizeTemposLoop buckets tps prev l).head? = some c → c.tempo ≠ prev) := by
  intro l
  induction l with
  | nil => exact fun prev => ⟨by simp [quantizeTemposLoop], by simp [quantizeTemposLoop],
      by simp [quantizeTemposLoop]⟩
  | cons c rest ih =>
    intro prev
    by_cases hc : nearestInt buckets c.tempo = prev
    · rw [show quantizeTemposLoop buckets tps prev (c :: rest) =
            quantizeTemposLoop buckets tps prev rest by rw [quantizeTemposLoop, if_pos hc]]
      exact ih prev
    · rw [show quantizeTemposLoop buckets tps prev (c :: rest) =
            { tempo := nearestInt buckets c.tempo, time := snapTime tps c.time } ::
              quantizeTemposLoop buckets tps (nearestInt buckets c.tempo) rest
          by rw [quantizeTemposLoop, if_neg hc]]

      refine ⟨?_, ?_, ?_⟩
      · intro d hd
        rcases List.mem_cons.mp hd with rfl | hd2
        · exact nearestInt_mem hb _
        · exact (ih (nearestInt buckets c.tempo)).1 d hd2
      · rw [List.chain'_cons']
        exact ⟨fun b hb2 => by
            have := (ih (nearestInt buckets c.tempo)).2.2 b hb2
            exact fun hcontra => this (by rw [← hcontra]),
          (ih (nearestInt buckets c.tempo)).2.1⟩
      · intro d hd
        simp only [List.head?_cons, Option.some.injEq] at hd
        rw [← hd]
        exact hc

/-- C8: after `quantize_tempos` every surviving change's tempo value lies
in the tempo bucket set and no two consecutive surviving changes carry
equal tempo values (a change whose quantized tempo equals the immediately
preceding surviving change's tempo is dropped); the final conjunct shows
on a concrete input that the deduplication is sequential, not global: the
value 40 survives twice, in non-adjacent positions. -/
theorem quantize_tempos_spec :
    (∀ (buckets : List ℤ) (td mbr : ℕ) (tempos : List MtTempoChange), buckets ≠ [] →
      (∀ c ∈ quantize_tempos buckets td mbr tempos, c.tempo ∈ buckets) ∧
      (quantize_tempos buckets td mbr tempos).Chain' (fun a b => a.tempo ≠ b.tempo)) ∧
    quantize_tempos [40, 80] 8 4 [⟨40, 0⟩, ⟨80, 2⟩, ⟨40, 4⟩] =
      [⟨40, 0⟩, ⟨80, 2⟩, ⟨40, 4⟩] := by
  constructor
  · intro buckets td mbr tempos hb
    obtain ⟨h1, h2, _⟩ := quantizeTemposLoop_spec buckets (td / mbr) hb tempos (-1)
    exact ⟨h1, h2⟩
  · decide

theorem quantize_tempos_spec_witness :
    ((40 : ℤ) ∈ ([40, 80] : List ℤ)) ∧
    (quantize_tempos [40, 80] 8 4 [⟨40, 0⟩, ⟨80, 2⟩, ⟨40, 4⟩]).Chain'
      (fun a b => a.tempo ≠ b.tempo) :=
  ⟨(quantize_tempos_spec.1 [40, 80] 8 4 [⟨40, 0⟩, ⟨80, 2⟩, ⟨40, 4⟩] (by decide)).1
      ⟨40, 0⟩ (by decide),
   (quantize_tempos_spec.1 [40, 80] 8 4 [⟨40, 0⟩, ⟨80, 2⟩, ⟨40, 4⟩] (by decide)).2⟩

/-- Velocity bins of `MIDITokenizer.__init__` (source line 65):
`np.linspace(0, 127, nb_velocities + 1, dtype=np.intc)[1:]`; `linspace`
with an integral dtype truncates each interpolated value `127·i/N`
toward zero, and the slice discards the leading `0` endpoint. -/
def velocities (nbVelocities : ℕ) : List ℕ :=
  ((List.range (nbVelocities + 1)).map (fun i => 127 * i / nbVelocities)).drop 1

theorem velocities_eq (N : ℕ) :
    velocities N = (List.range N).map (fun i => 127 * (i + 1) / N) := by
  rw [velocities, List.range_succ_eq_map, List.map_cons, List.drop_succ_cons,
    List.drop_zero, List.map_map]
  rfl

/-- C7 counterexample: with nb_velocities = 128 the first velocity bin is
floor(127·1/128) = 0, contradicting the claim that for every configured
nb_velocities the bins are all nonzero (they are not all distinct either). -/
theorem velocities_cex : 0 ∈ velocities 128 := by decide

/-- C7 (amended): for every configured nb_velocities = N with 1 ≤ N ≤ 127,
the velocity bucket set contains exactly N values, pairwise distinct and
strictly ascending, none equal to 0; each value is the linear interpolation
point 127·i/N (i = 1..N) truncated to an integer. -/
theorem velocities_spec (N : ℕ) (h1 : 1 ≤ N) (h127 : N ≤ 127) :
    (velocities N).length = N ∧ (velocities N).Pairwise (· < ·) ∧ 0 ∉ velocities N := by
  have hN : 0 < N := h1
  rw [velocities_eq]
  refine ⟨by simp, ?_, ?_⟩
  · rw [List.pairwise_map]
    refine (List.pairwise_lt_range N).imp ?_
    intro a b hab
    have key : 127 * (a + 1) + N ≤ 127 * (b + 1) := by
      have : a + 1 ≤ b := hab
      have h2 : 127 * (b + 1) = 127 * b + 127 := by ring
      have h3 : 127 * (a + 1) = 127 * a + 127 := by ring
      have h4 : 127 * (a + 1) + 127 ≤ 127 * (b + 1) := by
        rw [h2, h3]
        omega
      omega
    have h5 : (127 * (a + 1) + N) / N = 127 * (a + 1) / N + 1 := Nat.add_div_right _ hN
    have h6 : (127 * (a + 1) + N) / N ≤ 127 * (b + 1) / N := Nat.div_le_div_right key
    omega
  · intro hmem
    obtain ⟨i, _, hfi⟩ := List.mem_map.mp hmem
    have hle : N ≤ 127 * (i + 1) := by
      have : 127 ≤ 127 * (i + 1) := by
        have : 127 * (i + 1) = 127 * i + 127 := by ring
        omega
      omega
    have : 1 ≤ 127 * (i + 1) / N := (Nat.one_le_div_iff hN).mpr hle
    omega

theorem velocities_spec_witness :
    (velocities 8).length = 8 ∧ (velocities 8).Pairwise (· < ·) ∧ 0 ∉ velocities 8 :=
  velocities_spec 8 (by decide) (by decide)

/-- The `consider_pad=True` loop of `token_types_errors` (source lines
557-560): every adjacent pair is checked against the token types graph. -/
def tteLoopPad (graph : String → List String) (tokenType : ℕ → String) :
    String → List ℕ → ℕ
  | _, [] => 0
  | prevType, t :: rest =>
    (if tokenType t ∈ graph prevType then 0 else 1) +
      tteLoopPad graph tokenType (tokenType t) rest

/-- The default loop of `token_types_errors` (source lines 562-567):
iteration breaks as soon as the previous type is PAD. -/
def tteLoopNoPad (graph : String → List String) (tokenType : ℕ → String) :
    String → List ℕ → ℕ
  | _, [] => 0
  | prevType, t :: rest =>
    if prevType = "PAD" then 0
    else
      (if tokenType t ∈ graph prevType then 0 else 1) +
        tteLoopNoPad graph tokenType (tokenType t) rest

/-- Embedding of `MIDITokenizer.token_types_errors` (source lines 544-568).  The graph
is the `tokens_types_graph` dict and `tokenType` the `vocab.token_type`
lookup of the external `Vocabulary` collaborator.  On an empty token
sequence `tokens[0]` raises an `IndexError`, modelled by `none`; otherwise
the error count divided by the sequence length is returned. -/
def token_types_errors (graph : String → List String) (tokenType : ℕ → String)
    (tokens : List ℕ) (considerPad : Bool) : Option ℚ :=
  match tokens with
  | [] => none
  | t :: rest =>
    some (((if considerPad then tteLoopPad graph tokenType (tokenType t) rest
            else tteLoopNoPad graph tokenType (tokenType t) rest : ℕ) : ℚ) /
          (((t :: rest).length : ℕ) : ℚ))

/-- Prefix of a type sequence up to and including the first PAD type;
transitions beyond it are ignored by the default error count. -/
def takeThroughPad : List String → List String
  | [] => []
  | t :: rest => if t = "PAD" then [t] else t :: takeThroughPad rest

/-- Number of adjacent pairs whose transition is absent from the graph. -/
def countBadPairs (graph : String → List String) : List String → ℕ
  | a :: b :: rest => (if b ∈ graph a then 0 else 1) + countBadPairs graph (b :: rest)
  | _ => 0

/-- Error count as the specification words it: the number of adjacent
token pairs whose type transition is absent from the token-type graph,
counting stopping at the first PAD token unless `considerPad` is set. -/
def specErrCount (graph : String → List String) (tokenType : ℕ → String)
    (tokens : List ℕ) (considerPad : Bool) : ℕ :=
  countBadPairs graph
    (if considerPad then tokens.map tokenType else takeThroughPad (tokens.map tokenType))

theorem countBadPairs_cons (graph : String → List String) (a b : String) (l : List String) :
    countBadPairs graph (a :: b :: l) =
      (if b ∈ graph a then 0 else 1) + countBadPairs graph (b :: l) := rfl

theorem takeThroughPad_cons (a : String) (l : List String) :
    takeThroughPad (a :: l) = a :: (if a = "PAD" then [] else takeThroughPad l) := by
  by_cases h : a = "PAD"
  · rw [takeThroughPad, if_pos h, if_pos h]
  · rw [takeThroughPad, if_neg h, if_neg h]

theorem tteLoopPad_eq (graph : String → List String) (tokenType : ℕ → String) :
    ∀ (l : List ℕ) (prev : String),
      tteLoopPad graph tokenType prev l = countBadPairs graph (prev :: l.map tokenType) := by
  intro l
  induction l with
  | nil => intro prev; rfl
  | cons t rest ih =>
    intro prev
    rw [List.map_cons, countBadPairs, tteLoopPad, ih]

theorem tteLoopNoPad_eq (graph : String → List String) (tokenType : ℕ → String) :
    ∀ (l : List ℕ) (prev : String),
      tteLoopNoPad graph tokenType prev l =
        countBadPairs graph (takeThroughPad (prev :: l.map tokenType)) := by
  intro l
  induction l with
  | nil =>
    intro prev
    rw [List.map_nil, takeThroughPad_cons]
    split <;> rfl
  | cons t rest ih =>
    intro prev
    by_cases hp : prev = "PAD"
    · rw [List.map_cons, takeThroughPad_cons, if_pos hp, tteLoopNoPad, if_pos hp]
      rfl
    · rw [List.map_cons, takeThroughPad_cons, if_neg hp, tteLoopNoPad, if_neg hp, ih,
        takeThroughPad_cons]
      by_cases ht : tokenType t = "PAD"
      · rw [if_pos ht, countBadPairs_cons]
      · rw [if_neg ht, countBadPairs_cons]

/-- C1 counterexample: on the empty token sequence `token_types_errors`
raises (models as `none`) instead of returning a ratio, refuting the
claim quantified over every token sequence. -/
theorem token_types_errors_cex :
    token_types_errors (fun _ => ["Pitch"]) (fun _ => "Pitch") [] false = none := rfl

/-- C1 (amended): for every NON-EMPTY token sequence, `token_types_errors`
returns, without raising, the number of adjacent token pairs whose type
transition is absent from the token-type graph divided by the length of
the sequence; by default counting stops at the first PAD token, with
`consider_pad=True` it continues through PAD tokens. -/
theorem token_types_errors_spec (graph : String → List String)
    (tokenType : ℕ → String) (tokens : List ℕ) (considerPad : Bool)
    (h : tokens ≠ []) :
    token_types_errors graph tokenType tokens considerPad =
      some ((specErrCount graph tokenType tokens considerPad : ℚ) / (tokens.length : ℚ)) := by
  match tokens with
  | t :: rest =>
    rw [token_types_errors, specErrCount]
    cases considerPad
    · rw [if_neg (by simp), if_neg (by simp), tteLoopNoPad_eq, List.map_cons]
    · rw [if_pos (by simp), if_pos (by simp), tteLoopPad_eq, List.map_cons]

/-- Embedding of `MIDITokenizer.__create_durations_tuples` (source lines 382-398):
for each `(beat_range, res)` segment enumerate `(beat, pos, res)` with
`beat` in the range and `pos` below the resolution, append the final
bucket at `max(max(beat_res))` (lexicographic maximum key) with `pos = 0`
and that key's resolution, then delete the leading zero-length bucket. -/
def createDurationsTuples (beatRes : List ((ℕ × ℕ) × ℕ)) : List (ℕ × ℕ × ℕ) :=
  match beatRes with
  | [] => []
  | k0 :: _ =>
    ((beatRes.flatMap (fun s : (ℕ × ℕ) × ℕ =>
        (List.range' s.1.1 (s.1.2 - s.1.1)).flatMap (fun beat =>
          (List.range s.2).map (fun pos => (beat, pos, s.2)))) ++
      [((fun mk : ℕ × ℕ =>
          (max mk.1 mk.2, 0,
            (((beatRes.find? (fun s : (ℕ × ℕ) × ℕ => s.1 == mk)).map
                (fun s : (ℕ × ℕ) × ℕ => s.2)).getD 0)))
        ((beatRes.map (fun s : (ℕ × ℕ) × ℕ => s.1)).foldl
          (fun a k : ℕ × ℕ =>
            if a.1 < k.1 ∨ (a.1 = k.1 ∧ a.2 < k.2) then k else a) k0.1))]).drop 1)

/-- Embedding of `MIDITokenizer._token_duration_to_ticks` (source lines 400-411) on an
already-split token value: `(beat * res + pos) * time_division // res`. -/
def token_duration_to_ticks (beat pos res timeDivision : ℕ) : ℕ :=
  (beat * res + pos) * timeDivision / res

/-- Tick value of a duration bucket triple, as memoized per time-division
in `durations_ticks` (source lines 110-113). -/
def durationTicksOf (d : ℕ × ℕ × ℕ) (timeDivision : ℕ) : ℕ :=
  token_duration_to_ticks d.1 d.2.1 d.2.2 timeDivision

/-- Modelled from the spec: the tick-to-bucket inverse lookup belongs to
the concrete encoding strategies, which are absent from src/ (the file
holds only the abstract base class that memoizes `durations_ticks`).  The
spec prescribes nearest-match lookup over the memoized tick values
(`np.argmin` of the absolute difference, first minimum winning). -/
def parse_ticks_to_duration (durations : List (ℕ × ℕ × ℕ)) (timeDivision ticks : ℕ) :
    Option (ℕ × ℕ × ℕ) :=
  match durations with
  | [] => none
  | d :: rest =>
    some (foldNearest (fun b => natDist (durationTicksOf b timeDivision) ticks) d rest)

/-- C2 counterexample: with beat_res {(0,1): 8} the configured bucket list
contains both (0,1,8) and (0,2,8); at time_division 1 both map to 0 ticks,
and parsing (0,2,8)'s tick value back returns the first minimum (0,1,8):
the two mappings are not mutual inverses for every time_division. -/
theorem parse_ticks_cex :
    ((0, 2, 8) ∈ createDurationsTuples [((0, 1), 8)]) ∧
    token_duration_to_ticks 0 2 8 1 = token_duration_to_ticks 0 1 8 1 ∧
    parse_ticks_to_duration (createDurationsTuples [((0, 1), 8)]) 1
        (token_duration_to_ticks 0 2 8 1) = some (0, 1, 8) ∧
    ((0, 1, 8) : ℕ × ℕ × ℕ) ≠ (0, 2, 8) := by decide

/-- C2 (amended): for every duration bucket b of the configured bucket list
and every time_division t at which distinct buckets of the list carry
distinct tick values (bucket-to-ticks injective on the list — as whenever
t is a multiple of every configured resolution, but not for small t such
as t = 1), converting b to ticks = (beat·res + pos)·t/res and parsing that
tick value back through the nearest-match lookup recovers exactly b. -/
theorem parse_ticks_inverse (ds : List (ℕ × ℕ × ℕ)) (t : ℕ) (b : ℕ × ℕ × ℕ)
    (hmem : b ∈ ds)
    (hinj : ∀ b1 ∈ ds, ∀ b2 ∈ ds,
      durationTicksOf b1 t = durationTicksOf b2 t → b1 = b2) :
    parse_ticks_to_duration ds t (durationTicksOf b t) = some b := by
  match ds, hmem with
  | d :: rest, hmem =>
    rw [parse_ticks_to_duration]
    congr 1
    set dd := fun x => natDist (durationTicksOf x t) (durationTicksOf b t) with hdd
    have h0 : dd (foldNearest dd d rest) = 0 := by
      apply foldNearest_zero
      rcases List.mem_cons.mp hmem with rfl | hmem2
      · left; exact natDist_self _
      · right; exact ⟨b, hmem2, natDist_self _⟩
    have hmemf : foldNearest dd d rest ∈ d :: rest := by
      rcases foldNearest_mem dd d rest with h | h
      · rw [h]; exact List.mem_cons_self d rest
      · exact List.mem_cons_of_mem d h
    exact hinj _ hmemf b hmem (natDist_eq_zero h0)

theorem parse_ticks_inverse_witness :
    parse_ticks_to_duration (createDurationsTuples [((0, 1), 4)]) 4
        (durationTicksOf (0, 3, 4) 4) = some (0, 3, 4) :=
  parse_ticks_inverse (createDurationsTuples [((0, 1), 4)]) 4 (0, 3, 4)
    (by decide) (by decide)

/-- Smallest factor of `num` greater than 1, the embedding of the
`for i in range(2, numerator + 1): if numerator % i == 0: break` search
(source lines 481-484); for `num ≥ 2` the search always succeeds, the
`getD` default is never reached. -/
def findFactor (num : ℕ) : ℕ :=
  ((List.range' 2 (num - 1)).find? (fun i => num % i == 0)).getD num

theorem findFactor_two_le {num : ℕ} (h : 2 ≤ num) : 2 ≤ findFactor num := by
  rw [findFactor]
  cases hf : (List.range' 2 (num - 1)).find? (fun i => num % i == 0) with
  | none => simpa using h
  | some f =>
    have hmem := List.mem_of_find?_eq_some hf
    rw [List.mem_range'_1] at hmem
    simpa using hmem.1

/-- Decomposition loop of `_reduce_time_signature` (source lines 480-484):
while the numerator exceeds `nb_notes * denominator` divide it by its
smallest factor greater than 1.  When the numerator reaches 1 while still
above the bound the Python loop never terminates; that case is `none`. -/
def decompose (bound num : ℕ) : Option ℕ :=
  if num ≤ bound then some num
  else if num < 2 then none
  else decompose bound (num / findFactor num)
termination_by num
decreasing_by
  have hge : 2 ≤ num := by omega
  exact Nat.div_lt_self (by omega) (findFactor_two_le hge)

/-- Reduction loop of `_reduce_time_signature` (source lines 471-473):
while the denominator exceeds `max_beat_res` and both parts are even,
halve both. -/
def halveLoop (maxBeatRes num den : ℕ) : ℕ × ℕ :=
  if maxBeatRes < den ∧ den % 2 = 0 ∧ num % 2 = 0 then
    halveLoop maxBeatRes (num / 2) (den / 2)
  else (num, den)
termination_by den
decreasing_by exact Nat.div_lt_self (by omega) (by omega)

/-- Embedding of `MIDITokenizer._reduce_time_signature` (source lines 455-486): halve
while reducible, fail (`assert`) if the denominator still exceeds
`max_beat_res`, then decompose the numerator. -/
def reduce_time_signature (maxBeatRes nbNotes numerator denominator : ℕ) :
    Option (ℕ × ℕ) :=
  if (halveLoop maxBeatRes numerator denominator).2 ≤ maxBeatRes then
    (decompose (nbNotes * (halveLoop maxBeatRes numerator denominator).2)
        (halveLoop maxBeatRes numerator denominator).1).map
      (fun n => (n, (halveLoop maxBeatRes numerator denominator).2))
  else none

theorem decompose_le (bound : ℕ) : ∀ num r : ℕ, decompose bound num = some r → r ≤ bound := by
  intro num
  induction num using Nat.strong_induction_on with
  | _ num ih =>
    intro r h
    rw [decompose] at h
    split at h
    · injection h with h
      omega
    · split at h
      · exact Option.noConfusion h
      · have hge : 2 ≤ num := by omega
        exact ih (num / findFactor num)
          (Nat.div_lt_self (by omega) (findFactor_two_le hge)) r h

/-- C6: reducing the time signature (10, 4) with max_beat_res = 8 and
nb_notes = 2 yields (5, 4); and every input on which
`_reduce_time_signature` succeeds returns a pair with denominator at most
max_beat_res and numerator at most nb_notes times the denominator, the
numerator bound reached by repeated division by the smallest factor > 1. -/
theorem reduce_time_signature_spec :
    reduce_time_signature 8 2 10 4 = some (5, 4) ∧
    ∀ mb nb num den n d : ℕ, reduce_time_signature mb nb num den = some (n, d) →
      d ≤ mb ∧ n ≤ nb * d := by
  constructor
  · have h1 : halveLoop 8 10 4 = (10, 4) := by rw [halveLoop]; norm_num
    have hf : findFactor 10 = 2 := rfl
    have h5 : decompose 8 5 = some 5 := by rw [decompose]; norm_num
    have h2 : decompose 8 10 = some 5 := by
      rw [decompose, if_neg (by norm_num), if_neg (by norm_num), hf]
      norm_num [h5]
    rw [reduce_time_signature, h1]
    norm_num [h2]
  · intro mb nb num den n d h
    rw [reduce_time_signature] at h
    split at h
    · rename_i hle
      cases hd : decompose (nb * (halveLoop mb num den).2) (halveLoop mb num den).1 with
      | none => rw [hd] at h; exact Option.noConfusion h
      | some r =>
        rw [hd] at h
        injection h with h2
        injection h2 with ha hb
        subst ha
        subst hb
        exact ⟨hle, decompose_le _ _ _ hd⟩
    · exact Option.noConfusion h

theorem reduce_time_signature_spec_witness : 4 ≤ 8 ∧ 5 ≤ 2 * 4 :=
  reduce_time_signature_spec.2 8 2 10 4 5 4 reduce_time_signature_spec.1

/-- Sub-beat loop of `MIDITokenizer.__create_rests` (source lines 431-434):
while div > 1, append `(0, first_beat_res // div)` and halve div. -/
def restsLoop (firstBeatRes div : ℕ) : List (ℕ × ℕ) :=
  if 1 < div then (0, firstBeatRes / div) :: restsLoop firstBeatRes (div / 2) else []
termination_by div
decreasing_by exact Nat.div_lt_self (by omega) (by omega)

/-- Embedding of `MIDITokenizer.__create_rests` (source lines 413-436): the assert
requires the divisor to be even and at most the first beat resolution;
sub-beat rests from repeated halving are followed by the whole-beat rests
`(1,0) .. (max_beat,0)`. -/
def create_rests (div maxBeat firstBeatRes : ℕ) : Option (List (ℕ × ℕ)) :=
  if div % 2 = 0 ∧ div ≤ firstBeatRes then
    some (restsLoop firstBeatRes div ++ (List.range' 1 maxBeat).map (fun i => (i, 0)))
  else none

/-- C9: with rest divisor 4, maximum beat 6 and first beat resolution 8,
the constructed rest bucket list is exactly
(0,2), (0,4), (1,0), (2,0), (3,0), (4,0), (5,0), (6,0): sub-beat rests by
repeated halving, smallest first, then whole-beat rests 1..6. -/
theorem create_rests_example :
    create_rests 4 6 8 =
      some [(0, 2), (0, 4), (1, 0), (2, 0), (3, 0), (4, 0), (5, 0), (6, 0)] := by
  have h1 : restsLoop 8 1 = [] := by rw [restsLoop]; norm_num
  have h2 : restsLoop 8 2 = [(0, 4)] := by rw [restsLoop]; norm_num [h1]
  have h4 : restsLoop 8 4 = [(0, 2), (0, 4)] := by rw [restsLoop]; norm_num [h2]
  rw [create_rests, if_pos (by norm_num), h4]
  rfl

/-- A decoded MIDI object: the fields of `miditoolkit.MidiFile` that
`tokens_to_midi` assembles. -/
structure MtMidiFile where
  instruments : List (List MtNote)
  tempo_changes : List MtTempoChange
  ticks_per_beat : ℕ
  max_tick : ℕ
deriving DecidableEq

/-- Overwrites the time of the first tempo change with 0, the effect of
`midi.tempo_changes[0].time = 0` (source line 230). -/
def zeroFirstTime : List MtTempoChange → List MtTempoChange
  | [] => []
  | c :: cs => { c with time := 0 } :: cs

/-- Embedding of `MIDITokenizer.tokens_to_midi` (source lines 205-238), parameterized by
the abstract `tokens_to_track` strategy `f` returning a decoded track and
its tempo changes.  Only the first track's tempo changes are kept and the
first one's time is forced to 0; `max_tick` is the maximum note end over
all tracks.  On an empty token list `max([])` raises, and when the first
track yields no tempo change the subscript `[0]` raises: both are `none`. -/
def tokens_to_midi (f : List ℕ → List MtNote × List MtTempoChange)
    (tokens : List (List ℕ)) (timeDivision : ℕ) : Option MtMidiFile :=
  match tokens with
  | [] => none
  | t0 :: rest =>
    match (f t0).2 with
    | [] => none
    | c :: cs =>
      some { instruments := (t0 :: rest).map (fun tk => (f tk).1)
           , tempo_changes := { c with time := 0 } :: cs
           , ticks_per_beat := timeDivision
           , max_tick :=
               (((t0 :: rest).map (fun tk => (f tk).1)).map
                 (fun notes => (notes.map (fun n => n.«end»)).foldr max 0)).foldr max 0 }

/-- C10: for every non-empty token-sequence list the decoded MIDI keeps
exactly the first track's tempo changes with the first change's time
forcibly set to 0 (whatever time the decoding produced), tempo changes of
the other tracks being discarded; the instruments are the decoded tracks
of every sequence in order. -/
theorem tokens_to_midi_first_tempo
    (f : List ℕ → List MtNote × List MtTempoChange)
    (t0 : List ℕ) (rest : List (List ℕ)) (td : ℕ) (m : MtMidiFile)
    (h : tokens_to_midi f (t0 :: rest) td = some m) :
    m.tempo_changes = zeroFirstTime (f t0).2 ∧
    m.tempo_changes.head?.map MtTempoChange.time = some 0 ∧
    m.instruments = (t0 :: rest).map (fun tk => (f tk).1) := by
  rw [tokens_to_midi] at h
  cases hf : (f t0).2 with
  | nil => rw [hf] at h; exact Option.noConfusion h
  | cons c cs =>
    rw [hf] at h
    injection h with h
    subst h
    exact ⟨rfl, rfl, rfl⟩

theorem tokens_to_midi_first_tempo_witness :
    ([⟨120, 0⟩] : List MtTempoChange) =
      zeroFirstTime ((fun _ : List ℕ =>
        (([] : List MtNote), [(⟨120, 37⟩ : MtTempoChange)])) [0]).2 :=
  (tokens_to_midi_first_tempo (fun _ => ([], [⟨120, 37⟩])) [0] [[1]] 480
    ⟨[[], []], [⟨120, 0⟩], 480, 0⟩ (by decide)).1

theorem token_types_errors_spec_witness :
    token_types_errors (fun _ => ["Pitch"]) (fun t => if t = 0 then "Pitch" else "Rest")
        [0, 1, 0] false =
      some ((specErrCount (fun _ => ["Pitch"]) (fun t => if t = 0 then "Pitch" else "Rest")
          [0, 1, 0] false : ℚ) / ((3 : ℕ) : ℚ)) :=
  token_types_errors_spec (fun _ => ["Pitch"]) (fun t => if t = 0 then "Pitch" else "Rest")
    [0, 1, 0] false (by decide)

end Miditok
